import Mathlib

/-!
Verification of the pre-legalization peephole optimizer (`simple_preopt.rs`):
a shallow embedding of the pass's data model and of its four rewrites
(`simplify`, the div/rem-by-constant expander, `branch_opt`, `branch_order`)
together with the top-level driver `do_preopt`, and proofs about them.

Instruction handles, value handles, block handles and value-list handles are
modelled as natural numbers indexing into lists held by `FuncState`, mirroring
the arena-with-indices representation of the IR container.  The magic-number
library (`magic_u32` &c.) is external to the translated module and is taken as
a parameter (`MagicFns`); no claim below depends on the magic values.
-/

namespace SimplePreopt

/-! ## 32-bit word arithmetic used by the division rewrites -/

/-- Reinterpret a 32-bit word (a natural number, taken mod 2^32) as a signed value. -/
def toSigned32 (w : Nat) : Int :=
  if w % 2 ^ 32 < 2 ^ 31 then ((w % 2 ^ 32 : Nat) : Int) else ((w % 2 ^ 32 : Nat) : Int) - 2 ^ 32

/-- Reinterpret a 64-bit word as a signed value (`as i64` on a `u64`). -/
def toSigned64 (w : Nat) : Int :=
  if w % 2 ^ 64 < 2 ^ 63 then ((w % 2 ^ 64 : Nat) : Int) else ((w % 2 ^ 64 : Nat) : Int) - 2 ^ 64

/-- Truncate an integer to its 32-bit word representation. -/
def ofInt32 (x : Int) : Nat := (x % (2 ^ 32 : Int)).toNat

/-- Reinterpret an `i64` as a `u64` (`as u64`). -/
def u64OfInt (x : Int) : Nat := (x % (2 ^ 64 : Int)).toNat

/-- Two's-complement wrap-around to the `i32` range (`i32::wrapping_neg` &c.). -/
def wrap32 (x : Int) : Int := (x + 2 ^ 31) % 2 ^ 32 - 2 ^ 31

/-- Two's-complement wrap-around to the `i64` range (`i64::wrapping_neg` &c.). -/
def wrap64 (x : Int) : Int := (x + 2 ^ 63) % 2 ^ 64 - 2 ^ 63

/-- Logical (unsigned) right shift on 32-bit words. -/
def ushr32 (w s : Nat) : Nat := (w % 2 ^ 32) / 2 ^ s

/-- Arithmetic (sign-extending) right shift on 32-bit words. -/
def sshr32 (w s : Nat) : Nat := ofInt32 (toSigned32 w / 2 ^ s)

/-- Truncating (toward-zero) signed division, the semantics of the IR `sdiv`. -/
def sdivT (a b : Int) : Int :=
  if (0 ≤ a ∧ 0 ≤ b) ∨ (a < 0 ∧ b < 0) then ((a.natAbs / b.natAbs : Nat) : Int)
  else -((a.natAbs / b.natAbs : Nat) : Int)

/-! ## The IR data model -/

/-- Handles: SSA values, instructions, blocks (`Ebb`) and value lists are arena indices. -/
abbrev Value := Nat

/-- Instruction handle. -/
abbrev Inst := Nat

/-- Extended basic block handle; blocks are numbered in layout order. -/
abbrev Ebb := Nat

/-- Handle into the value-list pool (`ValueList` is a pool-backed list). -/
abbrev ListRef := Nat

/-- Value types relevant to the pass. -/
inductive Ty
  | i32
  | i64
  | b1
deriving DecidableEq

/-- Integer condition codes (`IntCC`). -/
inductive IntCC
  | eq
  | ne
  | slt
  | sge
  | sgt
  | sle
  | ult
  | uge
  | ugt
  | ule
deriving DecidableEq

/-- Modelled from the spec: the condition-code inverse used by `branch_opt` and
`branch_order` is logical negation (`condcodes.rs` is not part of the translated
sources; §4.5 of the spec fixes `inverse` on `Equal`/`NotEqual`, and §4.6 its use
for `br_icmp`). -/
def IntCC.inverse : IntCC → IntCC
  | .eq => .ne
  | .ne => .eq
  | .slt => .sge
  | .sge => .slt
  | .sgt => .sle
  | .sle => .sgt
  | .ult => .uge
  | .uge => .ult
  | .ugt => .ule
  | .ule => .ugt

/-- The opcodes handled or produced by the pass. -/
inductive Opcode
  | iconst
  | iadd
  | isub
  | imul
  | udiv
  | urem
  | sdiv
  | srem
  | band
  | bor
  | bxor
  | ishl
  | ushr
  | sshr
  | rotl
  | rotr
  | iaddImm
  | imulImm
  | udivImm
  | uremImm
  | sdivImm
  | sremImm
  | bandImm
  | borImm
  | bxorImm
  | ishlImm
  | ushrImm
  | sshrImm
  | rotlImm
  | rotrImm
  | irsubImm
  | icmp
  | icmpImm
  | brz
  | brnz
  | jump
  | fallthrough
  | brIcmp
  | brif
  | bint
  | copy
  | select
  | umulhi
  | smulhi
  | trapz
  | trap
deriving DecidableEq

/-- Instruction data, organised by instruction format as in `InstructionData`.
Fixed-arity formats carry their operands inline; the branch and jump formats
carry a handle into the value-list pool. -/
inductive InstructionData
  | Unary (op : Opcode) (arg : Value)
  | UnaryImm (op : Opcode) (imm : Int)
  | Binary (op : Opcode) (arg0 arg1 : Value)
  | BinaryImm (op : Opcode) (arg : Value) (imm : Int)
  | IntCompare (op : Opcode) (cond : IntCC) (arg0 arg1 : Value)
  | IntCompareImm (op : Opcode) (cond : IntCC) (arg : Value) (imm : Int)
  | Jump (op : Opcode) (destination : Ebb) (args : ListRef)
  | Branch (op : Opcode) (destination : Ebb) (args : ListRef)
  | BranchIcmp (op : Opcode) (cond : IntCC) (destination : Ebb) (args : ListRef)
  | BranchInt (op : Opcode) (cond : IntCC) (destination : Ebb) (args : ListRef)
  | Ternary (op : Opcode) (arg0 arg1 arg2 : Value)
  | CondTrap (op : Opcode) (arg : Value)
  | Trap (op : Opcode)
deriving DecidableEq

/-- Where a value comes from (`ValueDef`): a block parameter or an instruction result. -/
inductive ValueDef
  | Param (ebb : Ebb) (idx : Nat)
  | Result (inst : Inst) (idx : Nat)
deriving DecidableEq

/-- The mutable function state seen by the pass: the instruction arena, the
value-definition and value-type tables, the value-list pool, and the layout
(blocks in layout order, instructions in program order). -/
structure FuncState where
  insts : List InstructionData
  defs : List ValueDef
  valTypes : List Ty
  pools : List (List Value)
  blocks : List (List Inst)
deriving DecidableEq

/-- `dfg[inst]`. -/
def FuncState.inst (st : FuncState) (i : Inst) : InstructionData :=
  st.insts.getD i (.Trap .trap)

/-- `dfg.value_def v`. -/
def FuncState.vdef (st : FuncState) (v : Value) : ValueDef :=
  st.defs.getD v (.Param 0 0)

/-- `dfg.value_type v`. -/
def FuncState.vty (st : FuncState) (v : Value) : Ty :=
  st.valTypes.getD v .b1

/-- Contents of a pooled value list. -/
def FuncState.pool (st : FuncState) (r : ListRef) : List Value :=
  st.pools.getD r []

/-- In-place instruction replacement (`dfg.replace(inst)`): the result value
identity is untouched, only the instruction data changes. -/
def FuncState.setInst (st : FuncState) (i : Inst) (d : InstructionData) : FuncState :=
  { st with insts := st.insts.set i d }

/-- Write slot 0 of a pooled value list (`args.as_mut_slice(..)[0] = ..`). -/
def FuncState.setPoolSlot0 (st : FuncState) (r : ListRef) (v : Value) : FuncState :=
  { st with pools := st.pools.set r ((st.pool r).set 0 v) }

/-- Allocate a fresh value list in the pool; returns its handle. -/
def FuncState.allocPool (st : FuncState) (l : List Value) : FuncState × ListRef :=
  ({ st with pools := st.pools ++ [l] }, st.pools.length)

/-! ## `simplify` -/

/-- Apply basic simplifications: fold an `iconst` operand into an immediate-form
opcode, fold a constant `icmp` into `icmp_imm`, and elide a redundant `bint`
feeding a conditional. -/
def simplify (st : FuncState) (i : Inst) : FuncState :=
  match st.inst i with
  | .Binary op a0 a1 =>
    match st.vdef a1 with
    | .Result ic _ =>
      match st.inst ic with
      | .UnaryImm .iconst imm =>
        let res : Option (Opcode × Int) :=
          match op with
          | .iadd => some (.iaddImm, imm)
          | .imul => some (.imulImm, imm)
          | .sdiv => some (.sdivImm, imm)
          | .udiv => some (.udivImm, imm)
          | .srem => some (.sremImm, imm)
          | .urem => some (.uremImm, imm)
          | .band => some (.bandImm, imm)
          | .bor => some (.borImm, imm)
          | .bxor => some (.bxorImm, imm)
          | .rotl => some (.rotlImm, imm)
          | .rotr => some (.rotrImm, imm)
          | .ishl => some (.ishlImm, imm)
          | .ushr => some (.ushrImm, imm)
          | .sshr => some (.sshrImm, imm)
          | .isub => some (.iaddImm, wrap64 (-imm))
          | _ => none
        match res with
        | some (newOp, imm2) => st.setInst i (.BinaryImm newOp a0 imm2)
        | none => st
      | _ => st
    | _ =>
      -- the right operand is not an instruction result: try the left operand
      match st.vdef a0 with
      | .Result ic _ =>
        match st.inst ic with
        | .UnaryImm .iconst imm =>
          match op with
          | .isub => st.setInst i (.BinaryImm .irsubImm a1 imm)
          | _ => st
        | _ => st
      | _ => st
  | .IntCompare _op cond a0 a1 =>
    match st.vdef a1 with
    | .Result ic _ =>
      match st.inst ic with
      | .UnaryImm .iconst imm => st.setInst i (.IntCompareImm .icmpImm cond a0 imm)
      | _ => st
    | _ => st
  | .CondTrap tOp a =>
    match st.vdef a with
    | .Result di _ =>
      match st.inst di with
      | .Unary .bint boolVal => st.setInst i (.CondTrap tOp boolVal)
      | _ => st
    | _ => st
  | .Branch _ _ r =>
    match st.vdef ((st.pool r).getD 0 0) with
    | .Result di _ =>
      match st.inst di with
      | .Unary .bint boolVal => st.setPoolSlot0 r boolVal
      | _ => st
    | _ => st
  | .Ternary .select a0 a1 a2 =>
    match st.vdef a0 with
    | .Result di _ =>
      match st.inst di with
      | .Unary .bint boolVal => st.setInst i (.Ternary .select boolVal a1 a2)
      | _ => st
    | _ => st
  | _ => st

/-! ## Div/rem-by-constant classification -/

/-- The eight-way tagged descriptor `DivRemByConstInfo`. -/
inductive DivRemByConstInfo
  | DivU32 (n : Value) (d : Nat)
  | DivU64 (n : Value) (d : Nat)
  | DivS32 (n : Value) (d : Int)
  | DivS64 (n : Value) (d : Int)
  | RemU32 (n : Value) (d : Nat)
  | RemU64 (n : Value) (d : Nat)
  | RemS32 (n : Value) (d : Int)
  | RemS64 (n : Value) (d : Int)
deriving DecidableEq

/-- `package_up_divrem_info`: build a descriptor from the operand, its type, the
64-bit immediate and the signedness/remness flags, sanity-checking the immediate
range in the 32-bit cases. -/
def package_up_divrem_info (value : Value) (value_type : Ty) (imm : Int)
    (is_signed is_rem : Bool) : Option DivRemByConstInfo :=
  let immU64 := u64OfInt imm
  match is_signed, value_type with
  | false, .i32 =>
    if immU64 < 2 ^ 32 then
      -- `imm_u64 as u32` equals `immU64` under the guard
      if is_rem then some (.RemU32 value immU64) else some (.DivU32 value immU64)
    else none
  | false, .i64 =>
    if is_rem then some (.RemU64 value immU64) else some (.DivU64 value immU64)
  | true, .i32 =>
    if immU64 ≤ 2 ^ 31 - 1 ∨ immU64 ≥ 2 ^ 64 - 2 ^ 31 then
      -- `imm_u64 as i32` is the low 32 bits read as signed
      if is_rem then some (.RemS32 value (toSigned32 immU64))
      else some (.DivS32 value (toSigned32 immU64))
    else none
  | true, .i64 =>
    -- `imm_u64 as i64` reinterprets the 64-bit pattern as signed
    if is_rem then some (.RemS64 value (toSigned64 immU64))
    else some (.DivS64 value (toSigned64 immU64))
  | _, _ => none

/-- `get_div_info` on bare instruction data. -/
def getDivInfoData (d : InstructionData) (vty : Value → Ty) : Option DivRemByConstInfo :=
  match d with
  | .BinaryImm op arg imm =>
    match op with
    | .udivImm => package_up_divrem_info arg (vty arg) imm false false
    | .uremImm => package_up_divrem_info arg (vty arg) imm false true
    | .sdivImm => package_up_divrem_info arg (vty arg) imm true false
    | .sremImm => package_up_divrem_info arg (vty arg) imm true true
    | _ => none
  | _ => none

/-- `get_div_info`: recognise a div/rem-by-immediate instruction. -/
def get_div_info (st : FuncState) (i : Inst) : Option DivRemByConstInfo :=
  getDivInfoData (st.inst i) st.vty

/-! ## Power-of-two tests -/

/-- Base-2 logarithm with explicit fuel (64 steps suffice for 64-bit words);
on a power of two this equals `trailing_zeros`. -/
def log2Fuel : Nat → Nat → Nat
  | 0, _ => 0
  | fuel + 1, n => if 2 ≤ n then log2Fuel fuel (n / 2) + 1 else 0

/-- Base-2 logarithm of a word. -/
def natLog2 (n : Nat) : Nat := log2Fuel 64 n

/-- `u32::is_power_of_two` / `u64::is_power_of_two`: `n` is an exact power of 2. -/
def natIsPowerOfTwo (n : Nat) : Bool :=
  decide (0 < n) && decide (n = 2 ^ natLog2 n)

/-- `i32_is_power_of_two`: if `x` is a power of two or the negation of one,
return the sign and the exponent (`trailing_zeros` of the absolute value, which
for a power of two is its base-2 logarithm).  `-2^31` is special-cased because
its absolute value is not representable. -/
def i32_is_power_of_two (x : Int) : Option (Bool × Nat) :=
  if x = -(2 ^ 31) then some (true, 31)
  else
    let absX := x.natAbs
    if natIsPowerOfTwo absX then some (decide (x < 0), natLog2 absX) else none

/-- `i64_is_power_of_two`, with the `-2^63` special case. -/
def i64_is_power_of_two (x : Int) : Option (Bool × Nat) :=
  if x = -(2 ^ 63) then some (true, 63)
  else
    let absX := x.natAbs
    if natIsPowerOfTwo absX then some (decide (x < 0), natLog2 absX) else none

/-! ## Magic-number library interface -/

/-- Result of `magic_u32`. -/
structure MU32 where
  mul_by : Nat
  do_add : Bool
  shift_by : Int

/-- Result of `magic_u64`. -/
structure MU64 where
  mul_by : Nat
  do_add : Bool
  shift_by : Int

/-- Result of `magic_s32`. -/
structure MS32 where
  mul_by : Int
  shift_by : Int

/-- Result of `magic_s64`. -/
structure MS64 where
  mul_by : Int
  shift_by : Int

/-- The external magic-number library (`divconst_magic_numbers`), taken as a
parameter of the pass; no claim proved here depends on the magic values. -/
structure MagicFns where
  u32 : Nat → MU32
  u64 : Nat → MU64
  s32 : Int → MS32
  s64 : Int → MS64

/-- A vacuous instantiation of the magic library, used only on inputs whose
rewrites never consult it (trivial and power-of-two divisors). -/
def trivialMagic : MagicFns :=
  ⟨fun _ => ⟨0, false, 0⟩, fun _ => ⟨0, false, 0⟩, fun _ => ⟨0, 0⟩, fun _ => ⟨0, 0⟩⟩

/-! ## The div/rem rewriter -/

/-- Accumulator mirroring `pos.ins()`: the value defined by an emitted
instruction is `fresh + (number of instructions emitted before it)`. -/
structure EmitSt where
  fresh : Value
  out : List (InstructionData × Ty)

/-- Emit one instruction; returns its result value. -/
def EmitSt.emit (e : EmitSt) (d : InstructionData) (t : Ty) : EmitSt × Value :=
  (⟨e.fresh, e.out ++ [(d, t)]⟩, e.fresh + e.out.length)

/-- The U32 arm of `do_divrem_transformation`: instructions to insert before the
rewritten instruction, and the replacement data; `none` when no rewrite happens. -/
def actionU32 (m : MagicFns) (is_rem : Bool) (n1 : Value) (d : Nat) (fresh : Value) :
    Option (List (InstructionData × Ty) × InstructionData) :=
  if d = 0 then none
  else if d = 1 then
    if is_rem then some ([], .UnaryImm .iconst 0) else some ([], .Unary .copy n1)
  else if natIsPowerOfTwo d then
    let k := natLog2 d
    if is_rem then some ([], .BinaryImm .bandImm n1 ((2 ^ k : Nat) - 1 : Int))
    else some ([], .BinaryImm .ushrImm n1 (k : Int))
  else
    let mg := m.u32 d
    let e0 : EmitSt := ⟨fresh, []⟩
    let (e1, q0) := e0.emit (.UnaryImm .iconst (mg.mul_by : Int)) .i32
    let (e2, q1) := e1.emit (.Binary .umulhi n1 q0) .i32
    let (e3, qf) :=
      if mg.do_add then
        let (ea, t1) := e2.emit (.Binary .isub n1 q1) .i32
        let (eb, t2) := ea.emit (.BinaryImm .ushrImm t1 1) .i32
        let (ec, t3) := eb.emit (.Binary .iadd t2 q1) .i32
        ec.emit (.BinaryImm .ushrImm t3 (mg.shift_by - 1)) .i32
      else if mg.shift_by > 0 then e2.emit (.BinaryImm .ushrImm q1 mg.shift_by) .i32
      else (e2, q1)
    if is_rem then
      let (e4, tt) := e3.emit (.BinaryImm .imulImm qf (d : Int)) .i32
      some (e4.out, .Binary .isub n1 tt)
    else some (e3.out, .Unary .copy qf)

/-- The U64 arm of `do_divrem_transformation`. -/
def actionU64 (m : MagicFns) (is_rem : Bool) (n1 : Value) (d : Nat) (fresh : Value) :
    Option (List (InstructionData × Ty) × InstructionData) :=
  if d = 0 then none
  else if d = 1 then
    if is_rem then some ([], .UnaryImm .iconst 0) else some ([], .Unary .copy n1)
  else if natIsPowerOfTwo d then
    let k := natLog2 d
    if is_rem then some ([], .BinaryImm .bandImm n1 ((2 ^ k : Nat) - 1 : Int))
    else some ([], .BinaryImm .ushrImm n1 (k : Int))
  else
    let mg := m.u64 d
    let e0 : EmitSt := ⟨fresh, []⟩
    let (e1, q0) := e0.emit (.UnaryImm .iconst (toSigned64 mg.mul_by)) .i64
    let (e2, q1) := e1.emit (.Binary .umulhi n1 q0) .i64
    let (e3, qf) :=
      if mg.do_add then
        let (ea, t1) := e2.emit (.Binary .isub n1 q1) .i64
        let (eb, t2) := ea.emit (.BinaryImm .ushrImm t1 1) .i64
        let (ec, t3) := eb.emit (.Binary .iadd t2 q1) .i64
        ec.emit (.BinaryImm .ushrImm t3 (mg.shift_by - 1)) .i64
      else if mg.shift_by > 0 then e2.emit (.BinaryImm .ushrImm q1 mg.shift_by) .i64
      else (e2, q1)
    if is_rem then
      let (e4, tt) := e3.emit (.BinaryImm .imulImm qf (toSigned64 d)) .i64
      some (e4.out, .Binary .isub n1 tt)
    else some (e3.out, .Unary .copy qf)

/-- The S32 arm of `do_divrem_transformation`. -/
def actionS32 (m : MagicFns) (is_rem : Bool) (n1 : Value) (d : Int) (fresh : Value) :
    Option (List (InstructionData × Ty) × InstructionData) :=
  if d = -1 ∨ d = 0 then none
  else if d = 1 then
    if is_rem then some ([], .UnaryImm .iconst 0) else some ([], .Unary .copy n1)
  else
    match i32_is_power_of_two d with
    | some (is_negative, k) =>
      let e0 : EmitSt := ⟨fresh, []⟩
      let (e1, t1) :=
        if k - 1 = 0 then (e0, n1)
        else e0.emit (.BinaryImm .sshrImm n1 ((k : Int) - 1)) .i32
      let (e2, t2) := e1.emit (.BinaryImm .ushrImm t1 ((32 : Int) - (k : Int))) .i32
      let (e3, t3) := e2.emit (.Binary .iadd n1 t2) .i32
      if is_rem then
        let (e4, t4) := e3.emit (.BinaryImm .bandImm t3 (wrap32 (-(2 ^ k : Int)))) .i32
        some (e4.out, .Binary .isub n1 t4)
      else
        let (e4, t4) := e3.emit (.BinaryImm .sshrImm t3 (k : Int)) .i32
        if is_negative then some (e4.out, .BinaryImm .irsubImm t4 0)
        else some (e4.out, .Unary .copy t4)
    | none =>
      let mg := m.s32 d
      let e0 : EmitSt := ⟨fresh, []⟩
      let (e1, q0) := e0.emit (.UnaryImm .iconst mg.mul_by) .i32
      let (e2, q1) := e1.emit (.Binary .smulhi n1 q0) .i32
      let (e3, q2) :=
        if d > 0 ∧ mg.mul_by < 0 then e2.emit (.Binary .iadd q1 n1) .i32
        else if d < 0 ∧ mg.mul_by > 0 then e2.emit (.Binary .isub q1 n1) .i32
        else (e2, q1)
      let (e4, q3) :=
        if mg.shift_by = 0 then (e3, q2)
        else e3.emit (.BinaryImm .sshrImm q2 mg.shift_by) .i32
      let (e5, t1) := e4.emit (.BinaryImm .ushrImm q3 31) .i32
      let (e6, qf) := e5.emit (.Binary .iadd q3 t1) .i32
      if is_rem then
        let (e7, tt) := e6.emit (.BinaryImm .imulImm qf d) .i32
        some (e7.out, .Binary .isub n1 tt)
      else some (e6.out, .Unary .copy qf)

/-- The S64 arm of `do_divrem_transformation`. -/
def actionS64 (m : MagicFns) (is_rem : Bool) (n1 : Value) (d : Int) (fresh : Value) :
    Option (List (InstructionData × Ty) × InstructionData) :=
  if d = -1 ∨ d = 0 then none
  else if d = 1 then
    if is_rem then some ([], .UnaryImm .iconst 0) else some ([], .Unary .copy n1)
  else
    match i64_is_power_of_two d with
    | some (is_negative, k) =>
      let e0 : EmitSt := ⟨fresh, []⟩
      let (e1, t1) :=
        if k - 1 = 0 then (e0, n1)
        else e0.emit (.BinaryImm .sshrImm n1 ((k : Int) - 1)) .i64
      let (e2, t2) := e1.emit (.BinaryImm .ushrImm t1 ((64 : Int) - (k : Int))) .i64
      let (e3, t3) := e2.emit (.Binary .iadd n1 t2) .i64
      if is_rem then
        let (e4, t4) := e3.emit (.BinaryImm .bandImm t3 (wrap64 (-(2 ^ k : Int)))) .i64
        some (e4.out, .Binary .isub n1 t4)
      else
        let (e4, t4) := e3.emit (.BinaryImm .sshrImm t3 (k : Int)) .i64
        if is_negative then some (e4.out, .BinaryImm .irsubImm t4 0)
        else some (e4.out, .Unary .copy t4)
    | none =>
      let mg := m.s64 d
      let e0 : EmitSt := ⟨fresh, []⟩
      let (e1, q0) := e0.emit (.UnaryImm .iconst mg.mul_by) .i64
      let (e2, q1) := e1.emit (.Binary .smulhi n1 q0) .i64
      let (e3, q2) :=
        if d > 0 ∧ mg.mul_by < 0 then e2.emit (.Binary .iadd q1 n1) .i64
        else if d < 0 ∧ mg.mul_by > 0 then e2.emit (.Binary .isub q1 n1) .i64
        else (e2, q1)
      let (e4, q3) :=
        if mg.shift_by = 0 then (e3, q2)
        else e3.emit (.BinaryImm .sshrImm q2 mg.shift_by) .i64
      let (e5, t1) := e4.emit (.BinaryImm .ushrImm q3 63) .i64
      let (e6, qf) := e5.emit (.Binary .iadd q3 t1) .i64
      if is_rem then
        let (e7, tt) := e6.emit (.BinaryImm .imulImm qf d) .i64
        some (e7.out, .Binary .isub n1 tt)
      else some (e6.out, .Unary .copy qf)

/-- Dispatch of `do_divrem_transformation` over the eight descriptor variants. -/
def doDivremAction (m : MagicFns) (info : DivRemByConstInfo) (fresh : Value) :
    Option (List (InstructionData × Ty) × InstructionData) :=
  match info with
  | .DivU32 n d => actionU32 m false n d fresh
  | .RemU32 n d => actionU32 m true n d fresh
  | .DivU64 n d => actionU64 m false n d fresh
  | .RemU64 n d => actionU64 m true n d fresh
  | .DivS32 n d => actionS32 m false n d fresh
  | .RemS32 n d => actionS32 m true n d fresh
  | .DivS64 n d => actionS64 m false n d fresh
  | .RemS64 n d => actionS64 m true n d fresh

/-- Insert the emitted instructions before `i` in block `b` (giving them fresh
instruction and value ids) and replace instruction `i` in place. -/
def insertBefore (l : List Inst) (i : Inst) (newIds : List Inst) : List Inst :=
  match l with
  | [] => []
  | x :: xs => if x = i then newIds ++ x :: xs else x :: insertBefore xs i newIds

/-- Apply a div/rem rewrite action to the function state. -/
def applyAction (st : FuncState) (b : Nat) (i : Inst)
    (ins : List (InstructionData × Ty)) (repl : InstructionData) : FuncState :=
  let instBase := st.insts.length
  let newIds := (List.range ins.length).map (fun j => instBase + j)
  { insts := (st.insts ++ ins.map Prod.fst).set i repl
    defs := st.defs ++ (List.range ins.length).map (fun j => .Result (instBase + j) 0)
    valTypes := st.valTypes ++ ins.map Prod.snd
    pools := st.pools
    blocks := st.blocks.set b (insertBefore (st.blocks.getD b []) i newIds) }

/-- `do_divrem_transformation`: expand a div/rem-by-constant in place; the
trap-preserving cases perform no rewrite. -/
def do_divrem_transformation (m : MagicFns) (st : FuncState) (b : Nat) (i : Inst)
    (info : DivRemByConstInfo) : FuncState :=
  match doDivremAction m info st.defs.length with
  | none => st
  | some (ins, repl) => applyAction st b i ins repl

/-! ## `branch_opt` -/

/-- Result of a pass that may hit a programmer-error abort (`panic!`). -/
inductive PassResult
  | ok (st : FuncState)
  | aborted
deriving DecidableEq

/-- Fold a compare-against-zero (`icmp_imm cond, a, 0`) into the `brz`/`brnz`
branch that consumes it.  The final opcode update re-matches the branch
instruction and aborts if it is no longer in the `Branch` format. -/
def branch_opt (st : FuncState) (i : Inst) : PassResult :=
  match st.inst i with
  | .Branch brOpcode _dest brArgs =>
    match st.vdef ((st.pool brArgs).getD 0 0) with
    | .Result icmpInst _ =>
      match st.inst icmpInst with
      | .IntCompareImm .icmpImm cmpCond cmpArg cmpImm =>
        if cmpImm ≠ 0 then .ok st
        else
          -- icmp_imm returns non-zero when the comparison is true, so a
          -- branch-on-zero inverts the condition
          match (match brOpcode with
                 | .brz => some cmpCond.inverse
                 | .brnz => some cmpCond
                 | _ => none) with
          | none => .ok st
          | some cond =>
            match (match cond with
                   | IntCC.eq => some Opcode.brz
                   | IntCC.ne => some Opcode.brnz
                   | _ => none) with
            | none => .ok st
            | some newOpcode =>
              -- the cloned value-list handle aliases the branch's own list
              let st1 := st.setPoolSlot0 brArgs cmpArg
              match st1.inst i with
              | .Branch _ dest args => .ok (st1.setInst i (.Branch newOpcode dest args))
              | _ => .aborted
      | _ => .ok st
    | _ => .ok st
  | _ => .ok st

/-! ## `branch_order` -/

/-- `branch_destination()`: the single branch destination of an instruction, when
it has one. -/
def branch_destination : InstructionData → Option Ebb
  | .Jump _ dest _ => some dest
  | .Branch _ dest _ => some dest
  | .BranchIcmp _ _ dest _ => some dest
  | .BranchInt _ _ dest _ => some dest
  | _ => none

/-- `layout.prev_inst`: the instruction preceding `i` in the block's list. -/
def prev_inst_in (l : List Inst) (i : Inst) : Option Inst :=
  match l with
  | [] => none
  | [_] => none
  | x :: y :: rest => if y = i then some x else prev_inst_in (y :: rest) i

/-- `layout.next_ebb`: blocks are numbered in layout order. -/
def next_ebb (st : FuncState) (b : Nat) : Option Ebb :=
  if b + 1 < st.blocks.length then some (b + 1) else none

/-- The three swap kinds of `branch_order`. -/
inductive BranchOrderKind
  | BrzToBrnz (v : Value)
  | BrnzToBrz (v : Value)
  | InvertIcmpCond (c : IntCC) (x y : Value)

/-- Perform the terminator swap: the jump is rebuilt on the conditional branch's
destination with its block arguments, and the conditional branch (with inverted
sense) on the jump's destination with the jump's arguments. -/
def doSwap (st : FuncState) (termInst : Inst) (termDest : Ebb) (termArgsRef : ListRef)
    (condInst : Inst) (condDest : Ebb) (condArgsRef : ListRef) (kind : BranchOrderKind) :
    FuncState :=
  let condArgs := st.pool condArgsRef
  let termArgs := st.pool termArgsRef
  match kind with
  | .BrnzToBrz condArg =>
    let (st1, r1) := st.allocPool (condArgs.drop 1)
    let st2 := st1.setInst termInst (.Jump .jump condDest r1)
    let (st3, r2) := st2.allocPool (condArg :: termArgs)
    st3.setInst condInst (.Branch .brz termDest r2)
  | .BrzToBrnz condArg =>
    let (st1, r1) := st.allocPool (condArgs.drop 1)
    let st2 := st1.setInst termInst (.Jump .jump condDest r1)
    let (st3, r2) := st2.allocPool (condArg :: termArgs)
    st3.setInst condInst (.Branch .brnz termDest r2)
  | .InvertIcmpCond cond x y =>
    let (st1, r1) := st.allocPool (condArgs.drop 2)
    let st2 := st1.setInst termInst (.Jump .jump condDest r1)
    let (st3, r2) := st2.allocPool (x :: y :: termArgs)
    st3.setInst condInst (.BranchIcmp .brIcmp cond.inverse termDest r2)

/-- Reorder a conditional/unconditional terminator pair so the unconditional
edge becomes a fallthrough.  Aborts (`panic!("unexpected opcode")`) when the
preceding `Branch`-format instruction is neither `brz` nor `brnz`. -/
def branch_order (st : FuncState) (ebb : Ebb) (i : Inst) : PassResult :=
  match st.inst i with
  | .Jump .jump destination termArgsRef =>
    match next_ebb st ebb with
    | none => .ok st
    | some nextE =>
      if destination = nextE then .ok st
      else
        match prev_inst_in (st.blocks.getD ebb []) i with
        | none => .ok st
        | some prevInst =>
          match branch_destination (st.inst prevInst) with
          | none => .ok st
          | some prevDest =>
            if prevDest ≠ nextE then .ok st
            else
              match st.inst prevInst with
              | .Branch op condDest condArgsRef =>
                let condArg := (st.pool condArgsRef).getD 0 0
                match (match op with
                       | .brz => some (BranchOrderKind.BrzToBrnz condArg)
                       | .brnz => some (BranchOrderKind.BrnzToBrz condArg)
                       | _ => none) with
                | none => .aborted
                | some kind =>
                  .ok (doSwap st i destination termArgsRef prevInst condDest condArgsRef kind)
              | .BranchIcmp .brIcmp cond condDest condArgsRef =>
                let x := (st.pool condArgsRef).getD 0 0
                let y := (st.pool condArgsRef).getD 1 0
                .ok (doSwap st i destination termArgsRef prevInst condDest condArgsRef
                  (.InvertIcmpCond cond x y))
              | _ => .ok st
  | _ => .ok st

/-! ## The driver -/

/-- One driver iteration on instruction `i` of block `b`: `simplify`, then the
div/rem rewrite when the instruction classifies (advancing without the branch
passes), otherwise `branch_opt` and `branch_order`.  The boolean records whether
the branch passes were run on this instruction. -/
def driverStep (m : MagicFns) (st : FuncState) (b : Nat) (i : Inst) : PassResult × Bool :=
  let st1 := simplify st i
  match get_div_info st1 i with
  | some info => (.ok (do_divrem_transformation m st1 b i info), false)
  | none =>
    match branch_opt st1 i with
    | .aborted => (.aborted, true)
    | .ok st2 => (branch_order st2 b i, true)

/-- Run the driver over a block's instruction snapshot. -/
def runBlock (m : MagicFns) (st : FuncState) (b : Nat) : List Inst → PassResult
  | [] => .ok st
  | i :: rest =>
    match driverStep m st b i with
    | (.aborted, _) => .aborted
    | (.ok st', _) => runBlock m st' b rest

/-- Run the driver over the listed blocks in order. -/
def runBlocks (m : MagicFns) : FuncState → List Nat → PassResult
  | st, [] => .ok st
  | st, b :: rest =>
    match runBlock m st b (st.blocks.getD b []) with
    | .aborted => .aborted
    | .ok st' => runBlocks m st' rest

/-- `do_preopt`: iterate the blocks in layout order and, within each block, the
instructions in program order (inserted instructions land before the cursor and
are not revisited; replaced instructions keep their handle). -/
def do_preopt (m : MagicFns) (st : FuncState) : PassResult :=
  runBlocks m st (List.range st.blocks.length)

/-! ## Evaluation semantics for emitted 32-bit sequences -/

/-- Evaluate one instruction's result as a 32-bit word under an environment. -/
def evalData32 (env : Value → Nat) : InstructionData → Nat
  | .UnaryImm .iconst imm => ofInt32 imm
  | .Unary .copy a => env a % 2 ^ 32
  | .Binary .iadd a b => (env a + env b) % 2 ^ 32
  | .Binary .isub a b => ofInt32 ((env a : Int) - (env b : Int))
  | .BinaryImm .ushrImm a s => ushr32 (env a) s.toNat
  | .BinaryImm .sshrImm a s => sshr32 (env a) s.toNat
  | .BinaryImm .irsubImm a imm => ofInt32 (imm - toSigned32 (env a))
  | .BinaryImm .bandImm a imm => (env a) % 2 ^ 32 &&& ofInt32 imm
  | _ => 0

/-- Evaluate an emitted instruction list, binding each result to its fresh value. -/
def evalSeq (env : Value → Nat) (fresh : Value) : List (InstructionData × Ty) → (Value → Nat)
  | [] => env
  | (d, _) :: rest =>
    evalSeq (fun v => if v = fresh then evalData32 env d else env v) (fresh + 1) rest

/-- Evaluate the result of a div/rem rewrite action (the replacement instruction,
after the inserted instructions). -/
def runSeq (env : Value → Nat) (fresh : Value)
    (act : List (InstructionData × Ty) × InstructionData) : Nat :=
  evalData32 (evalSeq env fresh act.fst) act.snd

/-- The instruction sequence the spec's §4.4 demands for an I32 `sdiv_imm` by a
negative power of two `-(2^k)`:
`t1 = (n if k = 1 else sshr_imm(n, k-1)); t2 = ushr_imm(t1, 32-k);
t3 = iadd(n, t2); t4 = sshr_imm(t3, k)` and replacement `irsub_imm t4, 0`. -/
def s32NegPow2DivSeq (n : Value) (k : Nat) (fresh : Value) :
    List (InstructionData × Ty) × InstructionData :=
  if k = 1 then
    ([(.BinaryImm .ushrImm n 31, .i32),
      (.Binary .iadd n fresh, .i32),
      (.BinaryImm .sshrImm (fresh + 1) 1, .i32)],
     .BinaryImm .irsubImm (fresh + 2) 0)
  else
    ([(.BinaryImm .sshrImm n ((k : Int) - 1), .i32),
      (.BinaryImm .ushrImm fresh ((32 : Int) - (k : Int)), .i32),
      (.Binary .iadd n (fresh + 1), .i32),
      (.BinaryImm .sshrImm (fresh + 2) (k : Int), .i32)],
     .BinaryImm .irsubImm (fresh + 3) 0)

/-! ## Claim-side auxiliary definitions -/

/-- The compare-zero fusion table as the code implements it: the branch-taken
condition (inverted for `brz`, kept for `brnz`) selects the new opcode. -/
def fusedOpcode : Opcode → IntCC → Option Opcode
  | .brz, .eq => some .brnz
  | .brz, .ne => some .brz
  | .brnz, .eq => some .brz
  | .brnz, .ne => some .brnz
  | _, _ => none

/-- `true` iff the data is not a div/rem-by-immediate instruction (the only
shapes the classifier `get_div_info` can accept). -/
def notDivRemData (d : InstructionData) : Bool :=
  match d with
  | .BinaryImm op _ _ =>
    match op with
    | .udivImm | .uremImm | .sdivImm | .sremImm => false
    | _ => true
  | _ => true

/-- The `(successor, block arguments)` pairs contributed by one instruction:
the condition/compare operands occupy the first 1 (`brz`/`brnz`/`brif`) or
2 (`br_icmp`) value-list slots and the remainder travels with the destination. -/
def instEdgesArgs (st : FuncState) (d : InstructionData) : List (Ebb × List Value) :=
  match d with
  | .Jump _ dest r => [(dest, st.pool r)]
  | .Branch _ dest r => [(dest, (st.pool r).drop 1)]
  | .BranchIcmp _ _ dest r => [(dest, (st.pool r).drop 2)]
  | .BranchInt _ _ dest r => [(dest, (st.pool r).drop 1)]
  | _ => []

/-! ## Concrete states for counterexamples and witnesses -/

/-- The spec's own scenario for `branch_opt`: value 0 a block parameter `v1`,
instruction 0 `c = icmp_imm ne, v1, 0` (value 1), instruction 1 `brz c, B1, []`. -/
def c1CexState : FuncState :=
  { insts := [.IntCompareImm .icmpImm .ne 0 0, .Branch .brz 1 0]
    defs := [.Param 0 0, .Result 0 0]
    valTypes := [.i32, .b1]
    pools := [[1]]
    blocks := [[0, 1], []] }

/-- `c1CexState` after `branch_opt`: the code produces `brz v1` (not `brnz v1`). -/
def c1CexRes : FuncState :=
  { insts := [.IntCompareImm .icmpImm .ne 0 0, .Branch .brz 1 0]
    defs := [.Param 0 0, .Result 0 0]
    valTypes := [.i32, .b1]
    pools := [[0]]
    blocks := [[0, 1], []] }

/-- Witness state for the amended fusion table: `c = icmp_imm eq, v1, 0; brz c`. -/
def c1WitState : FuncState :=
  { insts := [.IntCompareImm .icmpImm .eq 0 0, .Branch .brz 1 0]
    defs := [.Param 0 0, .Result 0 0]
    valTypes := [.i32, .b1]
    pools := [[1]]
    blocks := [[0, 1], []] }

/-- Witness state for trap preservation: `udiv_imm v0, 0` with `v0 : I32`. -/
def c2WitState : FuncState :=
  { insts := [.BinaryImm .udivImm 0 0]
    defs := [.Param 0 0]
    valTypes := [.i32]
    pools := []
    blocks := [[0]] }

/-- Witness state for `branch_order`: block 0 ends `brz c, B1, [a1]; jump B2, [a2]`
with layout `B0, B1, B2`. -/
def c4WitState : FuncState :=
  { insts := [.Branch .brz 1 0, .Jump .jump 2 1]
    defs := [.Param 0 0, .Param 0 1, .Param 0 2]
    valTypes := [.b1, .i32, .i32]
    pools := [[0, 1], [2]]
    blocks := [[0, 1], [], []] }

/-- `c4WitState` after `branch_order`: `brnz c, B2, [a2]; jump B1, [a1]`. -/
def c4WitRes : FuncState :=
  { insts := [.Branch .brnz 2 3, .Jump .jump 1 2]
    defs := [.Param 0 0, .Param 0 1, .Param 0 2]
    valTypes := [.b1, .i32, .i32]
    pools := [[0, 1], [2], [1], [0, 2]]
    blocks := [[0, 1], [], []] }

/-- A div/rem-by-immediate with divisor 0: classified, but no expansion fires. -/
def c5CexState : FuncState :=
  { insts := [.BinaryImm .udivImm 0 0]
    defs := [.Param 0 0]
    valTypes := [.i32]
    pools := []
    blocks := [[0]] }

/-- A `brif`-terminated pair: `brif eq, flags, B1, []; jump B2, []` with layout
`B0, B1, B2`; the predecessor branches to the next block but is neither `brz`,
`brnz` nor `br_icmp`. -/
def c7CexState : FuncState :=
  { insts := [.BranchInt .brif .eq 1 0, .Jump .jump 2 1]
    defs := [.Param 0 0]
    valTypes := [.i32]
    pools := [[0], []]
    blocks := [[0, 1], [], []] }

/-- A genuine `BranchIcmp`-format pair: `br_icmp eq, p0, p1, B1, []; jump B2, []`
with layout `B0, B1, B2`; the predecessor branches to the next block, and the
pass handles it by the terminator swap rather than by aborting. -/
def c7CexState2 : FuncState :=
  { insts := [.BranchIcmp .brIcmp .eq 1 0, .Jump .jump 2 1]
    defs := [.Param 0 0, .Param 0 1]
    valTypes := [.i32, .i32]
    pools := [[0, 1], []]
    blocks := [[0, 1], [], []] }

/-- A `Branch`-format instruction carrying an unexpected opcode before a
non-fallthrough jump: this is the shape on which the pass aborts. -/
def c7WitState : FuncState :=
  { insts := [.Branch .brIcmp 1 0, .Jump .jump 2 1]
    defs := [.Param 0 0]
    valTypes := [.b1]
    pools := [[0], []]
    blocks := [[0, 1], [], []] }

/-- `isub` whose left operand is an `iconst 5` and whose right operand is the
result of an `iadd` (an instruction result that is not an `iconst`). -/
def c8CexState : FuncState :=
  { insts := [.UnaryImm .iconst 5, .Binary .iadd 0 1, .Binary .isub 2 3]
    defs := [.Param 0 0, .Param 0 1, .Result 0 0, .Result 1 0]
    valTypes := [.i32, .i32, .i32, .i32]
    pools := []
    blocks := [[0, 1, 2]] }

/-- Witness state for the amended left-constant rule: `isub v2, p1` with
`v2 = iconst 5` and `p1` a block parameter. -/
def c8WitState : FuncState :=
  { insts := [.UnaryImm .iconst 5, .Binary .isub 2 1]
    defs := [.Param 0 0, .Param 0 1, .Result 0 0]
    valTypes := [.i32, .i32, .i32]
    pools := []
    blocks := [[0, 1]] }

/-- A function whose only instruction is the `ushr_imm n, 3` produced by the
power-of-two expansion of `udiv_imm n, 8`. -/
def c9WitState : FuncState :=
  { insts := [.BinaryImm .ushrImm 0 3]
    defs := [.Param 0 0]
    valTypes := [.i32]
    pools := []
    blocks := [[0]] }

/-- Idempotence counterexample: `a = bint a0; c = icmp_imm eq, a, 0; brz c, B1, [];
jump B1, []` followed by a trapping block `B1`. -/
def c9Fun : FuncState :=
  { insts := [.Unary .bint 0, .IntCompareImm .icmpImm .eq 1 0, .Branch .brz 1 0,
              .Jump .jump 1 1, .Trap .trap]
    defs := [.Param 0 0, .Result 0 0, .Result 1 0]
    valTypes := [.b1, .i32, .b1]
    pools := [[2], []]
    blocks := [[0, 1, 2, 3], [4]] }

/-- `c9Fun` after one run of the pass: `branch_opt` has rewritten the `brz c`
into `brnz a` (opcode and first value-list slot). -/
def c9Fun1 : FuncState :=
  { insts := [.Unary .bint 0, .IntCompareImm .icmpImm .eq 1 0, .Branch .brnz 1 0,
              .Jump .jump 1 1, .Trap .trap]
    defs := [.Param 0 0, .Result 0 0, .Result 1 0]
    valTypes := [.b1, .i32, .b1]
    pools := [[1], []]
    blocks := [[0, 1, 2, 3], [4]] }

/-- `c9Fun` after two runs: on the second run `simplify`'s bint-elision fires on
the branch produced by the first run, replacing its condition by `a0`. -/
def c9Fun2 : FuncState :=
  { insts := [.Unary .bint 0, .IntCompareImm .icmpImm .eq 1 0, .Branch .brnz 1 0,
              .Jump .jump 1 1, .Trap .trap]
    defs := [.Param 0 0, .Result 0 0, .Result 1 0]
    valTypes := [.b1, .i32, .b1]
    pools := [[0], []]
    blocks := [[0, 1, 2, 3], [4]] }

/-! ## List helpers -/

theorem getD_set_ne {α : Type} (l : List α) (i j : Nat) (x d : α) (h : i ≠ j) :
    (l.set i x).getD j d = l.getD j d := by
  simp only [List.getD_eq_getElem?_getD, List.getElem?_set_ne h]

theorem getD_set_self {α : Type} (l : List α) (i : Nat) (x d : α) (h : i < l.length) :
    (l.set i x).getD i d = x := by
  simp only [List.getD_eq_getElem?_getD, List.getElem?_set_self h]
  rfl

theorem getD_append_left {α : Type} (l l2 : List α) (j : Nat) (d : α) (h : j < l.length) :
    (l ++ l2).getD j d = l.getD j d := by
  simp only [List.getD_eq_getElem?_getD, List.getElem?_append_left h]

theorem getD_append_self {α : Type} (l l2 : List α) (x d : α) :
    (l ++ x :: l2).getD l.length d = x := by
  simp only [List.getD_eq_getElem?_getD, List.getElem?_append_right (Nat.le_refl _)]
  simp

/-! ## Arithmetic facts about the 32-bit word operations -/

theorem toSigned32_eq (w : Nat) : toSigned32 w = ((w : Int) + 2 ^ 31) % 2 ^ 32 - 2 ^ 31 := by
  unfold toSigned32
  omega

theorem toSigned32_bounds (w : Nat) : -2 ^ 31 ≤ toSigned32 w ∧ toSigned32 w < 2 ^ 31 := by
  rw [toSigned32_eq]
  omega

theorem toSigned32_ofInt32 (x : Int) (h1 : -2 ^ 31 ≤ x) (h2 : x < 2 ^ 31) :
    toSigned32 (ofInt32 x) = x := by
  rw [toSigned32_eq]
  unfold ofInt32
  omega

theorem ofInt32_toSigned32 (w : Nat) (hw : w < 2 ^ 32) : ofInt32 (toSigned32 w) = w := by
  rw [toSigned32_eq]
  unfold ofInt32
  omega

theorem sshr32_zero (w : Nat) (hw : w < 2 ^ 32) : sshr32 w 0 = w := by
  unfold sshr32
  rw [pow_zero, Int.ediv_one, ofInt32_toSigned32 w hw]

theorem cast_two_pow (n : Nat) : (((2 ^ n : Nat) : Int)) = 2 ^ n := by
  push_cast
  ring

/-- The rounding-bias computation of the signed power-of-two division sequence:
`ushr_imm (sshr_imm n (k-1)) (32-k)` yields `2^k - 1` for a negative `n` and `0`
otherwise. -/
theorem bias_eval (k : Nat) (hk1 : 1 ≤ k) (hk2 : k ≤ 31) (w : Nat) :
    ushr32 (sshr32 w (k - 1)) (32 - k)
      = if toSigned32 w < 0 then 2 ^ k - 1 else 0 := by
  obtain ⟨hvlo, hvhi⟩ := toSigned32_bounds w
  set v := toSigned32 w with hv
  set x := v / 2 ^ (k - 1) with hx
  have hpow31 : (2 : Int) ^ (32 - k) * 2 ^ (k - 1) = 2 ^ 31 := by
    rw [← pow_add]
    congr 1
    omega
  have hpowNat : (2 : Nat) ^ k * 2 ^ (32 - k) = 2 ^ 32 := by
    rw [← pow_add]
    congr 1
    omega
  have hppos : (0 : Int) < 2 ^ (k - 1) := by positivity
  have h32k : (2 : Int) ^ (32 - k) ≤ 2 ^ 31 := by
    apply pow_le_pow_right₀ (by norm_num)
    omega
  have h32kNat : (2 : Nat) ^ (32 - k) ≤ 2 ^ 32 := Nat.pow_le_pow_right (by norm_num) (by omega)
  have hcast32k : (((2 ^ (32 - k) : Nat) : Int)) = 2 ^ (32 - k) := cast_two_pow _
  rcases lt_or_le v 0 with hneg | hpos
  · -- negative numerator: the shifted word is in the top 2^(32-k) block
    have hxlo : -((2 : Int) ^ (32 - k)) ≤ x := by
      rw [hx, Int.le_ediv_iff_mul_le hppos]
      calc -((2 : Int) ^ (32 - k)) * 2 ^ (k - 1) = -(2 ^ (32 - k) * 2 ^ (k - 1)) := by ring
        _ = -2 ^ 31 := by rw [hpow31]
        _ ≤ v := hvlo
    have hxhi : x < 0 := Int.ediv_neg' hneg hppos
    have hword : sshr32 w (k - 1) = (x + 2 ^ 32).toNat := by
      unfold sshr32 ofInt32
      rw [← hv, ← hx]
      omega
    rw [hword, if_pos hneg]
    unfold ushr32
    have hlo : (2 ^ k - 1) * 2 ^ (32 - k) ≤ (x + 2 ^ 32).toNat := by
      have h1 : ((2 ^ k - 1) * 2 ^ (32 - k) : Nat) = 2 ^ 32 - 2 ^ (32 - k) := by
        have h2 : (1 : Nat) ≤ 2 ^ k := Nat.one_le_two_pow
        calc ((2 ^ k - 1) * 2 ^ (32 - k) : Nat)
            = 2 ^ k * 2 ^ (32 - k) - 1 * 2 ^ (32 - k) := by rw [Nat.sub_mul]
          _ = 2 ^ 32 - 2 ^ (32 - k) := by rw [hpowNat, one_mul]
      omega
    have hhi : (x + 2 ^ 32).toNat < 2 ^ k * 2 ^ (32 - k) := by
      rw [hpowNat]
      omega
    have hmodid : (x + 2 ^ 32).toNat % 2 ^ 32 = (x + 2 ^ 32).toNat := by omega
    rw [hmodid]
    have h2 : (1 : Nat) ≤ 2 ^ k := Nat.one_le_two_pow
    have hplus : (2 ^ k - 1 + 1 : Nat) = 2 ^ k := by omega
    exact Nat.div_eq_of_lt_le hlo (by rw [hplus]; exact hhi)
  · -- nonnegative numerator: the shifted word is below 2^(32-k), so the bias is zero
    have hx0 : 0 ≤ x := Int.ediv_nonneg hpos (le_of_lt hppos)
    have hxhi : x < 2 ^ (32 - k) := by
      rw [hx, Int.ediv_lt_iff_lt_mul hppos]
      calc v < 2 ^ 31 := hvhi
        _ = 2 ^ (32 - k) * 2 ^ (k - 1) := hpow31.symm
    have hword : sshr32 w (k - 1) = x.toNat := by
      unfold sshr32 ofInt32
      rw [← hv, ← hx]
      omega
    rw [hword, if_neg (by omega)]
    unfold ushr32
    have h3 : x.toNat < (2 : Nat) ^ (32 - k) := by omega
    rw [Nat.mod_eq_of_lt (by omega)]
    exact Nat.div_eq_of_lt h3

/-- Truncating division by the negation of a positive divisor, via floor division. -/
theorem sdivT_neg_eq (v P : Int) (hP : 0 < P) :
    sdivT v (-P) = if 0 ≤ v then -(v / P) else (-v) / P := by
  unfold sdivT
  have hb : (((-P).natAbs : Nat) : Int) = P := by
    rw [Int.natAbs_neg, Int.natAbs_of_nonneg (le_of_lt hP)]
  rcases le_or_lt 0 v with h | h
  · rw [if_neg (by omega), if_pos h, Int.ofNat_tdiv, hb, Int.natAbs_of_nonneg h]
    rw [Int.tdiv_eq_ediv h (le_of_lt hP)]
  · rw [if_pos (Or.inr ⟨h, by omega⟩), if_neg (by omega), Int.ofNat_tdiv, hb]
    rw [← Int.natAbs_neg v, Int.natAbs_of_nonneg (by omega)]
    rw [Int.tdiv_eq_ediv (by omega) (le_of_lt hP)]

/-- Adding `P - 1` to a negative dividend turns floor division into ceiling division. -/
theorem add_bias_ediv_neg (v P : Int) (hP : 0 < P) (hv : v < 0) :
    (v + P - 1) / P = -((-v) / P) := by
  have hmod := Int.ediv_add_emod (-v) P
  have hr0 : 0 ≤ (-v) % P := Int.emod_nonneg _ (ne_of_gt hP)
  have hrP : (-v) % P < P := Int.emod_lt_of_pos _ hP
  have h1 : v + P - 1 = (P - 1 - (-v) % P) + -((-v) / P) * P := by
    linear_combination hmod
  rw [h1, Int.add_mul_ediv_right _ _ (ne_of_gt hP),
    Int.ediv_eq_zero_of_lt (by omega) (by omega), zero_add]

/-- Correctness of the signed power-of-two division bit-twiddling at width 32:
the sequence `sshr/ushr/iadd/sshr` followed by negation computes the truncating
quotient by `-(2^k)`. -/
theorem s32_neg_pow2_eval (k : Nat) (hk1 : 1 ≤ k) (hk2 : k ≤ 31) (w : Nat) (hw : w < 2 ^ 32) :
    toSigned32 (ofInt32 (0 - toSigned32 (sshr32
        ((w + ushr32 (if k = 1 then w else sshr32 w (k - 1)) (32 - k)) % 2 ^ 32) k)))
      = sdivT (toSigned32 w) (-(2 ^ k)) := by
  have hif : (if k = 1 then w else sshr32 w (k - 1)) = sshr32 w (k - 1) := by
    split
    · next h =>
      rw [h]
      simpa using (sshr32_zero w hw).symm
    · rfl
  rw [hif, bias_eval k hk1 hk2 w]
  obtain ⟨hvlo, hvhi⟩ := toSigned32_bounds w
  set v := toSigned32 w with hv
  set N : Nat := 2 ^ k with hN
  set P : Int := (N : Int) with hP
  have hveq : v = ((w : Int) + 2 ^ 31) % 2 ^ 32 - 2 ^ 31 := by rw [hv, toSigned32_eq]
  have hPpow : P = (2 : Int) ^ k := by rw [hP, hN]; exact cast_two_pow k
  have hPpos : (0 : Int) < P := by rw [hPpow]; positivity
  have hP2 : (2 : Int) ≤ P := by
    rw [hPpow]
    calc (2 : Int) = 2 ^ 1 := (pow_one 2).symm
      _ ≤ 2 ^ k := pow_le_pow_right₀ (by norm_num) hk1
  have hPle : P ≤ 2 ^ 31 := by
    rw [hPpow]
    exact pow_le_pow_right₀ (by norm_num) hk2
  have hN1 : (1 : Nat) ≤ N := Nat.one_le_two_pow
  have hNle : N ≤ 2 ^ 31 := Nat.pow_le_pow_right (by norm_num) hk2
  have hsd : sdivT v (-(2 ^ k)) = if 0 ≤ v then -(v / P) else (-v) / P := by
    rw [← hPpow]
    exact sdivT_neg_eq v P hPpos
  rw [hsd]
  rcases lt_or_le v 0 with hneg | hpos
  · rw [if_pos hneg, if_neg (by omega)]
    have ht3 : toSigned32 ((w + (N - 1)) % 2 ^ 32) = v + P - 1 := by
      rw [toSigned32_eq, hP]
      omega
    have hq : toSigned32 (sshr32 ((w + (N - 1)) % 2 ^ 32) k) = (v + P - 1) / P := by
      unfold sshr32
      rw [ht3, ← hPpow]
      apply toSigned32_ofInt32
      · rw [Int.le_ediv_iff_mul_le hPpos]
        have hmm : (-2 ^ 31 : Int) * P ≤ -2 ^ 31 * 1 :=
          mul_le_mul_of_nonpos_left (by omega) (by norm_num)
        omega
      · rw [Int.ediv_lt_iff_lt_mul hPpos]
        have hmm : (1 : Int) * P ≤ 2 ^ 31 * P :=
          mul_le_mul_of_nonneg_right (by norm_num) (le_of_lt hPpos)
        omega
    rw [hq]
    have hqlo : -2 ^ 30 ≤ (v + P - 1) / P := by
      rw [Int.le_ediv_iff_mul_le hPpos]
      have hmm : (-2 ^ 30 : Int) * P ≤ -2 ^ 30 * 2 :=
        mul_le_mul_of_nonpos_left hP2 (by norm_num)
      omega
    have hqhi : (v + P - 1) / P ≤ 0 := by
      have h1 : (v + P - 1) / P < 1 := by
        rw [Int.ediv_lt_iff_lt_mul hPpos]
        omega
      omega
    rw [zero_sub, toSigned32_ofInt32 _ (by omega) (by omega)]
    rw [add_bias_ediv_neg v P hPpos hneg]
    omega
  · rw [if_pos hpos, if_neg (by omega)]
    have ht3 : ((w + 0) % 2 ^ 32) = w := by omega
    have hq : toSigned32 (sshr32 ((w + 0) % 2 ^ 32) k) = v / P := by
      unfold sshr32
      rw [ht3, ← hv, ← hPpow]
      apply toSigned32_ofInt32
      · have h1 : (0 : Int) ≤ v / P := Int.ediv_nonneg hpos (le_of_lt hPpos)
        omega
      · have h1 : v / P ≤ v := Int.ediv_le_self _ hpos
        omega
    rw [hq]
    have h1 : (0 : Int) ≤ v / P := Int.ediv_nonneg hpos (le_of_lt hPpos)
    have h2 : v / P ≤ v := Int.ediv_le_self _ hpos
    rw [zero_sub, toSigned32_ofInt32 _ (by omega) (by omega)]

/-- For `1 ≤ k ≤ 31`, the classifier recognises `-(2^k)` as a negated power of two. -/
theorem i32_pow2_neg (k : Nat) (hk1 : 1 ≤ k) (hk2 : k ≤ 31) :
    i32_is_power_of_two (-(2 ^ k)) = some (true, k) := by
  interval_cases k <;> decide

/-! ## Claim theorems -/

/-- C1 (counterexample): on the spec's own scenario `c = icmp_imm ne, v1, 0;
brz c, B1, []`, `branch_opt` produces `brz v1, B1, []` — not the `brnz v1, B1, []`
demanded by the claim's table (`brz` with `NotEqual` maps to `brz`, because a
branch-on-zero takes the branch exactly when the comparison is false). -/
theorem c1_fusion_table_counterexample :
    branch_opt c1CexState 1 = .ok c1CexRes
    ∧ c1CexRes.inst 1 = .Branch .brz 1 0
    ∧ (.Branch .brz 1 0 : InstructionData) ≠ .Branch .brnz 1 0 := by
  refine ⟨by decide, by decide, by decide⟩

/-- C1 (amended): for a `brz`/`brnz` whose condition is defined by
`icmp_imm cond, a, 0`, `branch_opt` rewrites the branch to operate directly on
`a` with the opcode given by the inverted table (`brz`+`Equal` gives `brnz`,
`brz`+`NotEqual` gives `brz`, `brnz`+`Equal` gives `brz`, `brnz`+`NotEqual`
gives `brnz`), leaving the destination and the remaining operand list unchanged;
for any other condition code the branch is left unchanged. -/
theorem c1_branch_opt_fusion (st : FuncState) (i : Inst) (brOp : Opcode) (dest : Ebb)
    (r : ListRef) (c : Value) (rest : List Value) (icmpI : Inst) (idx : Nat) (a : Value)
    (cond : IntCC)
    (hbr : st.inst i = .Branch brOp dest r)
    (hpool : st.pool r = c :: rest)
    (hdef : st.vdef c = .Result icmpI idx)
    (hicmp : st.inst icmpI = .IntCompareImm .icmpImm cond a 0)
    (hop : brOp = .brz ∨ brOp = .brnz) :
    (∀ newOp, fusedOpcode brOp cond = some newOp →
        branch_opt st i = .ok ((st.setPoolSlot0 r a).setInst i (.Branch newOp dest r))
        ∧ (st.setPoolSlot0 r a).pool r = a :: rest)
    ∧ (fusedOpcode brOp cond = none → branch_opt st i = .ok st) := by
  have hr : r < st.pools.length := by
    by_contra hr
    have hnil : st.pool r = [] := by
      unfold FuncState.pool
      rw [List.getD_eq_default]
      exact Nat.le_of_not_lt hr
    rw [hpool] at hnil
    exact List.cons_ne_nil c rest hnil
  have hslot : (st.setPoolSlot0 r a).pool r = a :: rest := by
    show (st.pools.set r ((st.pool r).set 0 a)).getD r [] = a :: rest
    rw [getD_set_self _ _ _ _ hr, hpool]
    rfl
  have hinst1 : (st.setPoolSlot0 r a).inst i = st.inst i := rfl
  constructor
  · intro newOp hfused
    refine ⟨?_, hslot⟩
    rcases hop with h | h <;> subst h <;> cases cond <;>
      simp only [fusedOpcode, Option.some.injEq, reduceCtorEq] at hfused <;>
      subst hfused <;>
      unfold branch_opt <;>
      simp [hbr, hpool, hdef, hicmp, hinst1, IntCC.inverse]
  · intro hfused
    rcases hop with h | h <;> subst h <;> cases cond <;>
      simp only [fusedOpcode, reduceCtorEq] at hfused <;>
      unfold branch_opt <;>
      simp [hbr, hpool, hdef, hicmp, IntCC.inverse]

/-- C1 (witness): `c = icmp_imm eq, v1, 0; brz c` is rewritten to `brnz v1`. -/
theorem c1_branch_opt_fusion_witness :
    branch_opt c1WitState 1
      = .ok ((c1WitState.setPoolSlot0 0 0).setInst 1 (.Branch .brnz 1 0)) := by
  have h := (c1_branch_opt_fusion c1WitState 1 .brz 1 0 1 [] 0 0 0 .eq
    (by decide) (by decide) (by decide) (by decide) (Or.inl rfl)).1 .brnz (by decide)
  exact h.1

/-- C5 (counterexample): `v1 = udiv_imm v0, 0` classifies as a div/rem-by-immediate,
so the driver advances without running the branch passes (second component
`false`) even though no expansion fired (the state is returned unchanged) —
contradicting the claim that the branch passes still run on such an instruction. -/
theorem c5_driver_skip_counterexample :
    driverStep trivialMagic c5CexState 0 0 = (.ok c5CexState, false) := by
  decide

/-- C5 (amended): the driver skips the branch passes precisely when the (already
simplified) instruction classifies as a div/rem-by-immediate — whether or not the
expansion fires. -/
theorem c5_driver_skip (m : MagicFns) (st : FuncState) (b : Nat) (i : Inst) :
    (driverStep m st b i).2 = false ↔ (get_div_info (simplify st i) i).isSome := by
  unfold driverStep
  cases hgd : get_div_info (simplify st i) i
  · cases hbo : branch_opt (simplify st i) i <;> simp [hgd, hbo]
  · simp [hgd]

/-- C7 (counterexample): a `brif` (BranchInt-format) predecessor whose destination
is the next layout block, followed by a non-fallthrough jump, does not abort the
pass — `branch_order` leaves the block unchanged — contradicting the claim that
any predecessor that is neither `brz`, `brnz` nor `br_icmp` aborts; and a genuine
`BranchIcmp`-format `br_icmp` predecessor in the same shape does not abort either:
it is handled by the terminator swap (the result differs from the input state). -/
theorem c7_abort_counterexample :
    branch_order c7CexState 0 1 = .ok c7CexState
    ∧ (PassResult.ok c7CexState ≠ .aborted)
    ∧ branch_order c7CexState2 0 1 ≠ .aborted
    ∧ branch_order c7CexState2 0 1 ≠ .ok c7CexState2 := by
  refine ⟨by decide, by decide, by decide, by decide⟩

/-- C7 (amended): the abort happens exactly for a `Branch`-format predecessor
whose opcode is neither `brz` nor `brnz` (with branch destination equal to the
next layout block and a non-fallthrough jump as the current instruction); a
`BranchIcmp` `br_icmp` predecessor is handled by the terminator swap, and a
predecessor of any other format (e.g. a BranchInt `brif`) falls into the
trailing return, leaving the block unchanged — neither aborts. -/
theorem c7_branch_order_abort (st : FuncState) (b : Nat) (i prevI : Inst) (nextE : Ebb)
    (termDest : Ebb) (termR : ListRef) (op : Opcode) (condDest : Ebb) (condR : ListRef)
    (hnext : next_ebb st b = some nextE)
    (hterm : st.inst i = .Jump .jump termDest termR)
    (hne : termDest ≠ nextE)
    (hprev : prev_inst_in (st.blocks.getD b []) i = some prevI)
    (hprevdata : st.inst prevI = .Branch op condDest condR)
    (hdest : condDest = nextE)
    (hop1 : op ≠ .brz) (hop2 : op ≠ .brnz) :
    branch_order st b i = .aborted := by
  unfold branch_order
  rw [hterm]
  dsimp only
  rw [hnext]
  dsimp only
  rw [if_neg hne, hprev]
  dsimp only
  rw [hprevdata]
  dsimp only [branch_destination]
  rw [if_neg (show ¬(condDest ≠ nextE) from by simp [hdest])]
  try dsimp only
  cases op <;> first
    | exact absurd rfl hop1
    | exact absurd rfl hop2
    | rfl

/-- C7 (witness): a `Branch`-format instruction carrying the `br_icmp` opcode
before a non-fallthrough jump aborts the pass. -/
theorem c7_branch_order_abort_witness : branch_order c7WitState 0 1 = .aborted := by
  exact c7_branch_order_abort c7WitState 0 1 0 1 2 1 .brIcmp 1 0
    (by decide) (by decide) (by decide) (by decide) (by decide) rfl
    (by decide) (by decide)

/-- C8 (counterexample): `v3 = iadd p0 p1; v4 = isub v2 v3` with `v2 = iconst 5`:
the right operand is an instruction result that is not an `iconst`, the left is an
`iconst`, yet `simplify` leaves the instruction unchanged (no `irsub_imm` rewrite),
because the left-operand rule is only reached when the right operand is not an
instruction result at all. -/
theorem c8_left_const_isub_counterexample :
    simplify c8CexState 2 = c8CexState
    ∧ c8CexState.inst 2 ≠ .BinaryImm .irsubImm 3 5 := by
  refine ⟨by decide, by decide⟩

/-- C8 (amended): an `isub` whose left operand is defined by `iconst C` is
rewritten to `irsub_imm C, right` when the right operand is not the result of any
instruction (e.g. a block parameter); when the right operand is the result of a
non-`iconst` instruction, `simplify` leaves the instruction unchanged. -/
theorem c8_left_const_isub (st : FuncState) (i : Inst) (a b : Value) (c : Int)
    (j : Inst) (idx : Nat) (e : Ebb) (pidx : Nat)
    (hinst : st.inst i = .Binary .isub a b)
    (hright : st.vdef b = .Param e pidx)
    (hleft : st.vdef a = .Result j idx)
    (hiconst : st.inst j = .UnaryImm .iconst c) :
    simplify st i = st.setInst i (.BinaryImm .irsubImm b c)
    ∧ ∀ (st2 : FuncState) (i2 : Inst) (a2 b2 : Value) (j2 : Inst) (idx2 : Nat),
        st2.inst i2 = .Binary .isub a2 b2 → st2.vdef b2 = .Result j2 idx2 →
        (∀ imm, st2.inst j2 ≠ .UnaryImm .iconst imm) → simplify st2 i2 = st2 := by
  constructor
  · unfold simplify
    rw [hinst]
    dsimp only
    rw [hright]
    dsimp only
    rw [hleft]
    dsimp only
    rw [hiconst]
  · intro st2 i2 a2 b2 j2 idx2 h1 h2 h3
    unfold simplify
    rw [h1]
    dsimp only
    rw [h2]
    try dsimp only
    cases hj : st2.inst j2 with
    | UnaryImm op imm =>
      cases op <;> first
        | exact absurd hj (h3 _)
        | rfl
    | _ => rfl

/-- C8 (witness): `isub v2, p1` with `v2 = iconst 5` and `p1` a parameter becomes
`irsub_imm p1, 5`. -/
theorem c8_left_const_isub_witness :
    simplify c8WitState 1 = c8WitState.setInst 1 (.BinaryImm .irsubImm 1 5) :=
  (c8_left_const_isub c8WitState 1 2 1 5 0 0 0 1
    (by decide) (by decide) (by decide) (by decide)).1

/-- C9 (counterexample): running the pass twice is not the same as running it
once: on `c9Fun`, the first run rewrites `brz c` to `brnz a` via `branch_opt`,
and the second run's `simplify` elides the `bint` feeding the rewritten branch,
changing the IR again. -/
theorem c9_idempotence_counterexample :
    do_preopt trivialMagic c9Fun = .ok c9Fun1
    ∧ do_preopt trivialMagic c9Fun1 = .ok c9Fun2
    ∧ c9Fun2 ≠ c9Fun1 := by
  refine ⟨by decide, by decide, by decide⟩

/-- C10: `branch_opt` never aborts: the final opcode-update step re-matches the
same instruction it matched at entry, and the only intervening mutation (writing
slot 0 of the cloned value list, which lives in the pool) cannot change that
instruction's format. -/
theorem c10_branch_opt_no_abort (st : FuncState) (i : Inst) :
    branch_opt st i ≠ .aborted := by
  unfold branch_opt
  cases hd : st.inst i <;> try exact fun h => PassResult.noConfusion h
  case Branch brOp dest brArgs =>
    dsimp only
    cases hv : st.vdef ((st.pool brArgs).getD 0 0) <;>
      try exact fun h => PassResult.noConfusion h
    case Result icmpInst idx =>
      dsimp only
      cases hc : st.inst icmpInst <;> try exact fun h => PassResult.noConfusion h
      case IntCompareImm cop cond arg imm =>
        cases cop <;> try exact fun h => PassResult.noConfusion h
        case icmpImm =>
          dsimp only
          have hst1 : (st.setPoolSlot0 brArgs arg).inst i = .Branch brOp dest brArgs := hd
          by_cases himm : imm ≠ 0
          · rw [if_pos himm]
            exact fun h => PassResult.noConfusion h
          · rw [if_neg himm]
            cases brOp <;> try exact fun h => PassResult.noConfusion h
            · cases cond <;> try exact fun h => PassResult.noConfusion h
              all_goals
                dsimp only [IntCC.inverse]
                rw [hst1]
                exact fun h => PassResult.noConfusion h
            · cases cond <;> try exact fun h => PassResult.noConfusion h
              all_goals
                dsimp only [IntCC.inverse]
                rw [hst1]
                exact fun h => PassResult.noConfusion h

/-- C2: trap preservation: a `udiv_imm`/`urem_imm` with immediate 0, and an
`sdiv_imm`/`srem_imm` with immediate 0 or -1 (operand of type I32 or I64), is
never rewritten: the div/rem action is `none` and the transformation returns the
state unchanged (no replacement, no insertions). -/
theorem c2_trap_preservation (m : MagicFns) (st : FuncState) (b : Nat) (i : Inst)
    (op : Opcode) (v : Value) (imm : Int)
    (hinst : st.inst i = .BinaryImm op v imm)
    (hty : st.vty v = .i32 ∨ st.vty v = .i64)
    (hop : ((op = .udivImm ∨ op = .uremImm) ∧ imm = 0)
         ∨ ((op = .sdivImm ∨ op = .sremImm) ∧ (imm = 0 ∨ imm = -1))) :
    ∀ info, get_div_info st i = some info →
      doDivremAction m info st.defs.length = none
      ∧ do_divrem_transformation m st b i info = st := by
  intro info hinfo
  unfold get_div_info getDivInfoData at hinfo
  rw [hinst] at hinfo
  have hu0 : u64OfInt 0 = 0 := by decide
  have hu1 : u64OfInt (-1) = 2 ^ 64 - 1 := by decide
  have hs32 : toSigned32 (2 ^ 64 - 1) = -1 := by decide
  have hs64 : toSigned64 (2 ^ 64 - 1) = -1 := by decide
  rcases hop with ⟨h1 | h1, h2⟩ | ⟨h1 | h1, h2 | h2⟩ <;> subst h1 <;> subst h2 <;>
    dsimp only at hinfo <;>
    rcases hty with hty | hty <;> rw [hty] at hinfo <;>
    simp only [package_up_divrem_info, hu0, hu1, hs32, hs64] at hinfo <;>
    norm_num at hinfo <;>
    subst hinfo <;>
    exact ⟨rfl, rfl⟩

/-- C2 (witness): `udiv_imm v0, 0` with `v0 : I32` is left intact. -/
theorem c2_trap_preservation_witness :
    do_divrem_transformation trivialMagic c2WitState 0 0 (.DivU32 0 0) = c2WitState := by
  have h := c2_trap_preservation trivialMagic c2WitState 0 0 .udivImm 0 0
    (by decide) (Or.inl (by decide)) (Or.inl ⟨Or.inl rfl, rfl⟩) (.DivU32 0 0) (by decide)
  exact h.2

/-- C6: classifier acceptance: for operand type I32, a signed descriptor is
produced iff the 64-bit immediate lies in [-2^31, 2^31 - 1], and an unsigned one
iff the immediate read as an unsigned 64-bit value lies below 2^32; out-of-range
immediates yield no descriptor; I64 immediates are accepted unconditionally. -/
theorem c6_classifier_acceptance (v : Value) (imm : Int) (is_rem : Bool)
    (hImm : -(2 ^ 63) ≤ imm ∧ imm < 2 ^ 63) :
    ((package_up_divrem_info v .i32 imm true is_rem).isSome
        ↔ (-(2 ^ 31) ≤ imm ∧ imm ≤ 2 ^ 31 - 1))
    ∧ ((package_up_divrem_info v .i32 imm false is_rem).isSome ↔ u64OfInt imm < 2 ^ 32)
    ∧ (package_up_divrem_info v .i64 imm true is_rem).isSome = true
    ∧ (package_up_divrem_info v .i64 imm false is_rem).isSome = true := by
  obtain ⟨hlo, hhi⟩ := hImm
  refine ⟨?_, ?_, ?_, ?_⟩
  · unfold package_up_divrem_info
    dsimp only
    split
    · next hcond =>
      unfold u64OfInt at hcond
      cases is_rem <;> simp <;> omega
    · next hcond =>
      unfold u64OfInt at hcond
      simp only [Option.isSome_none, Bool.false_eq_true, false_iff]
      omega
  · unfold package_up_divrem_info
    dsimp only
    split
    · next hcond =>
      cases is_rem <;> simp <;> omega
    · next hcond =>
      simp only [Option.isSome_none, Bool.false_eq_true, false_iff]
      omega
  · unfold package_up_divrem_info
    cases is_rem <;> rfl
  · unfold package_up_divrem_info
    cases is_rem <;> rfl

/-- C6 (witness): `2^31 - 1` is accepted signed-32, `2^31` is not; `2^32 - 1` is
accepted unsigned-32. -/
theorem c6_classifier_acceptance_witness :
    (package_up_divrem_info 0 .i32 (2 ^ 31 - 1) true false).isSome = true
    ∧ (package_up_divrem_info 0 .i32 (2 ^ 31) true false).isSome = false
    ∧ (package_up_divrem_info 0 .i32 (2 ^ 32 - 1) false false).isSome = true := by
  have h1 := (c6_classifier_acceptance 0 (2 ^ 31 - 1) false (by norm_num)).1
  have h2 := (c6_classifier_acceptance 0 (2 ^ 31) false (by norm_num)).1
  have h3 := (c6_classifier_acceptance 0 (2 ^ 32 - 1) false (by norm_num)).2.1
  refine ⟨?_, ?_, ?_⟩
  · rw [h1]
    norm_num
  · rw [Bool.eq_false_iff]
    intro hc
    have := h2.mp hc
    norm_num at this
  · rw [h3]
    decide

/-- C4: `branch_order` swap rule and CFG preservation: when `P: brz c, D, args_P`
is immediately followed by the terminator `J: jump T, args_J`, `D` is the next
block in layout order and `T` is not, the pass replaces `P` with
`brnz c, T, args_J` and `J` with `jump D, args_P` (symmetrically for `brnz`, and
`br_icmp` gets its condition inverted with both compare operands kept); the
multiset of `(successor, carried block arguments)` edges of the pair is
preserved, and all other instructions are untouched. -/
theorem c4_branch_order_swap (st : FuncState) (b : Nat) (i prevI : Inst) (nextE : Ebb)
    (termDest : Ebb) (termR : ListRef) (condDest : Ebb) (condR : ListRef)
    (hnext : next_ebb st b = some nextE)
    (hterm : st.inst i = .Jump .jump termDest termR)
    (hne : termDest ≠ nextE)
    (hprev : prev_inst_in (st.blocks.getD b []) i = some prevI)
    (hdest : condDest = nextE) :
    (∀ c restP, st.inst prevI = .Branch .brz condDest condR →
       st.pool condR = c :: restP →
       ∃ st', branch_order st b i = .ok st'
         ∧ st'.inst prevI = .Branch .brnz termDest (st.pools.length + 1)
         ∧ st'.pool (st.pools.length + 1) = c :: st.pool termR
         ∧ st'.inst i = .Jump .jump condDest st.pools.length
         ∧ st'.pool st.pools.length = restP
         ∧ (instEdgesArgs st' (st'.inst prevI) ++ instEdgesArgs st' (st'.inst i)).Perm
             (instEdgesArgs st (st.inst prevI) ++ instEdgesArgs st (st.inst i))
         ∧ ∀ j, j ≠ prevI → j ≠ i → st'.inst j = st.inst j)
    ∧ (∀ c restP, st.inst prevI = .Branch .brnz condDest condR →
       st.pool condR = c :: restP →
       ∃ st', branch_order st b i = .ok st'
         ∧ st'.inst prevI = .Branch .brz termDest (st.pools.length + 1)
         ∧ st'.pool (st.pools.length + 1) = c :: st.pool termR
         ∧ st'.inst i = .Jump .jump condDest st.pools.length
         ∧ st'.pool st.pools.length = restP
         ∧ (instEdgesArgs st' (st'.inst prevI) ++ instEdgesArgs st' (st'.inst i)).Perm
             (instEdgesArgs st (st.inst prevI) ++ instEdgesArgs st (st.inst i))
         ∧ ∀ j, j ≠ prevI → j ≠ i → st'.inst j = st.inst j)
    ∧ (∀ cc x y restP, st.inst prevI = .BranchIcmp .brIcmp cc condDest condR →
       st.pool condR = x :: y :: restP →
       ∃ st', branch_order st b i = .ok st'
         ∧ st'.inst prevI = .BranchIcmp .brIcmp cc.inverse termDest (st.pools.length + 1)
         ∧ st'.pool (st.pools.length + 1) = x :: y :: st.pool termR
         ∧ st'.inst i = .Jump .jump condDest st.pools.length
         ∧ st'.pool st.pools.length = restP
         ∧ (instEdgesArgs st' (st'.inst prevI) ++ instEdgesArgs st' (st'.inst i)).Perm
             (instEdgesArgs st (st.inst prevI) ++ instEdgesArgs st (st.inst i))
         ∧ ∀ j, j ≠ prevI → j ≠ i → st'.inst j = st.inst j) := by
  have hiLt : i < st.insts.length := by
    by_contra hlen
    have hdef : st.inst i = .Trap .trap := by
      unfold FuncState.inst
      rw [List.getD_eq_default]
      exact Nat.le_of_not_lt hlen
    rw [hterm] at hdef
    exact InstructionData.noConfusion hdef
  refine ⟨?_, ?_, ?_⟩
  · intro c restP hbrz hpoolc
    have hprevLt : prevI < st.insts.length := by
      by_contra hlen
      have hdef : st.inst prevI = .Trap .trap := by
        unfold FuncState.inst
        rw [List.getD_eq_default]
        exact Nat.le_of_not_lt hlen
      rw [hbrz] at hdef
      exact InstructionData.noConfusion hdef
    have hpne : prevI ≠ i := by
      intro h
      rw [h, hterm] at hbrz
      exact InstructionData.noConfusion hbrz
    have hrun : branch_order st b i
        = .ok (doSwap st i termDest termR prevI condDest condR (.BrzToBrnz c)) := by
      unfold branch_order
      rw [hterm]
      dsimp only
      rw [hnext]
      dsimp only
      rw [if_neg hne, hprev]
      dsimp only
      rw [hbrz]
      dsimp only [branch_destination]
      rw [if_neg (show ¬(condDest ≠ nextE) from by simp [hdest])]
      try dsimp only
      rw [show (st.pool condR).getD 0 0 = c from by rw [hpoolc]; rfl]
    have hSwap : doSwap st i termDest termR prevI condDest condR (.BrzToBrnz c)
        = { insts := (st.insts.set i (.Jump .jump condDest st.pools.length)).set prevI
              (.Branch .brnz termDest (st.pools.length + 1))
            defs := st.defs
            valTypes := st.valTypes
            pools := (st.pools ++ [restP]) ++ [c :: st.pool termR]
            blocks := st.blocks } := by
      simp [doSwap, FuncState.allocPool, FuncState.setInst, hpoolc]
    have hinstPrev : (doSwap st i termDest termR prevI condDest condR
        (.BrzToBrnz c)).inst prevI = .Branch .brnz termDest (st.pools.length + 1) := by
      rw [hSwap]
      unfold FuncState.inst
      exact getD_set_self _ _ _ _ (by simpa using hprevLt)
    have hpoolNew : (doSwap st i termDest termR prevI condDest condR
        (.BrzToBrnz c)).pool (st.pools.length + 1) = c :: st.pool termR := by
      rw [hSwap]
      unfold FuncState.pool
      have hlenA : (st.pools ++ [restP]).length = st.pools.length + 1 := by simp
      rw [← hlenA]
      exact getD_append_self _ _ _ _
    have hinstI : (doSwap st i termDest termR prevI condDest condR
        (.BrzToBrnz c)).inst i = .Jump .jump condDest st.pools.length := by
      rw [hSwap]
      unfold FuncState.inst
      rw [getD_set_ne _ _ _ _ _ hpne]
      exact getD_set_self _ _ _ _ hiLt
    have hpoolJ : (doSwap st i termDest termR prevI condDest condR
        (.BrzToBrnz c)).pool st.pools.length = restP := by
      rw [hSwap]
      unfold FuncState.pool
      rw [getD_append_left _ _ _ _ (by simp)]
      exact getD_append_self _ _ _ _
    refine ⟨_, hrun, hinstPrev, hpoolNew, hinstI, hpoolJ, ?_, ?_⟩
    · rw [hinstPrev, hinstI, hbrz, hterm]
      unfold instEdgesArgs
      dsimp only
      rw [hpoolNew, hpoolJ, hpoolc]
      exact List.Perm.swap _ _ _
    · intro j hj1 hj2
      rw [hSwap]
      unfold FuncState.inst
      rw [getD_set_ne _ _ _ _ _ (Ne.symm hj1), getD_set_ne _ _ _ _ _ (Ne.symm hj2)]
  · intro c restP hbrnz hpoolc
    have hprevLt : prevI < st.insts.length := by
      by_contra hlen
      have hdef : st.inst prevI = .Trap .trap := by
        unfold FuncState.inst
        rw [List.getD_eq_default]
        exact Nat.le_of_not_lt hlen
      rw [hbrnz] at hdef
      exact InstructionData.noConfusion hdef
    have hpne : prevI ≠ i := by
      intro h
      rw [h, hterm] at hbrnz
      exact InstructionData.noConfusion hbrnz
    have hrun : branch_order st b i
        = .ok (doSwap st i termDest termR prevI condDest condR (.BrnzToBrz c)) := by
      unfold branch_order
      rw [hterm]
      dsimp only
      rw [hnext]
      dsimp only
      rw [if_neg hne, hprev]
      dsimp only
      rw [hbrnz]
      dsimp only [branch_destination]
      rw [if_neg (show ¬(condDest ≠ nextE) from by simp [hdest])]
      try dsimp only
      rw [show (st.pool condR).getD 0 0 = c from by rw [hpoolc]; rfl]
    have hSwap : doSwap st i termDest termR prevI condDest condR (.BrnzToBrz c)
        = { insts := (st.insts.set i (.Jump .jump condDest st.pools.length)).set prevI
              (.Branch .brz termDest (st.pools.length + 1))
            defs := st.defs
            valTypes := st.valTypes
            pools := (st.pools ++ [restP]) ++ [c :: st.pool termR]
            blocks := st.blocks } := by
      simp [doSwap, FuncState.allocPool, FuncState.setInst, hpoolc]
    have hinstPrev : (doSwap st i termDest termR prevI condDest condR
        (.BrnzToBrz c)).inst prevI = .Branch .brz termDest (st.pools.length + 1) := by
      rw [hSwap]
      unfold FuncState.inst
      exact getD_set_self _ _ _ _ (by simpa using hprevLt)
    have hpoolNew : (doSwap st i termDest termR prevI condDest condR
        (.BrnzToBrz c)).pool (st.pools.length + 1) = c :: st.pool termR := by
      rw [hSwap]
      unfold FuncState.pool
      have hlenA : (st.pools ++ [restP]).length = st.pools.length + 1 := by simp
      rw [← hlenA]
      exact getD_append_self _ _ _ _
    have hinstI : (doSwap st i termDest termR prevI condDest condR
        (.BrnzToBrz c)).inst i = .Jump .jump condDest st.pools.length := by
      rw [hSwap]
      unfold FuncState.inst
      rw [getD_set_ne _ _ _ _ _ hpne]
      exact getD_set_self _ _ _ _ hiLt
    have hpoolJ : (doSwap st i termDest termR prevI condDest condR
        (.BrnzToBrz c)).pool st.pools.length = restP := by
      rw [hSwap]
      unfold FuncState.pool
      rw [getD_append_left _ _ _ _ (by simp)]
      exact getD_append_self _ _ _ _
    refine ⟨_, hrun, hinstPrev, hpoolNew, hinstI, hpoolJ, ?_, ?_⟩
    · rw [hinstPrev, hinstI, hbrnz, hterm]
      unfold instEdgesArgs
      dsimp only
      rw [hpoolNew, hpoolJ, hpoolc]
      exact List.Perm.swap _ _ _
    · intro j hj1 hj2
      rw [hSwap]
      unfold FuncState.inst
      rw [getD_set_ne _ _ _ _ _ (Ne.symm hj1), getD_set_ne _ _ _ _ _ (Ne.symm hj2)]
  · intro cc x y restP hicmp hpoolc
    have hprevLt : prevI < st.insts.length := by
      by_contra hlen
      have hdef : st.inst prevI = .Trap .trap := by
        unfold FuncState.inst
        rw [List.getD_eq_default]
        exact Nat.le_of_not_lt hlen
      rw [hicmp] at hdef
      exact InstructionData.noConfusion hdef
    have hpne : prevI ≠ i := by
      intro h
      rw [h, hterm] at hicmp
      exact InstructionData.noConfusion hicmp
    have hrun : branch_order st b i
        = .ok (doSwap st i termDest termR prevI condDest condR
            (.InvertIcmpCond cc x y)) := by
      unfold branch_order
      rw [hterm]
      dsimp only
      rw [hnext]
      dsimp only
      rw [if_neg hne, hprev]
      dsimp only
      rw [hicmp]
      dsimp only [branch_destination]
      rw [if_neg (show ¬(condDest ≠ nextE) from by simp [hdest])]
      try dsimp only
      rw [show (st.pool condR).getD 0 0 = x from by rw [hpoolc]; rfl,
        show (st.pool condR).getD 1 0 = y from by rw [hpoolc]; rfl]
    have hSwap : doSwap st i termDest termR prevI condDest condR (.InvertIcmpCond cc x y)
        = { insts := (st.insts.set i (.Jump .jump condDest st.pools.length)).set prevI
              (.BranchIcmp .brIcmp cc.inverse termDest (st.pools.length + 1))
            defs := st.defs
            valTypes := st.valTypes
            pools := (st.pools ++ [restP]) ++ [x :: y :: st.pool termR]
            blocks := st.blocks } := by
      simp [doSwap, FuncState.allocPool, FuncState.setInst, hpoolc]
    have hinstPrev : (doSwap st i termDest termR prevI condDest condR
        (.InvertIcmpCond cc x y)).inst prevI
        = .BranchIcmp .brIcmp cc.inverse termDest (st.pools.length + 1) := by
      rw [hSwap]
      unfold FuncState.inst
      exact getD_set_self _ _ _ _ (by simpa using hprevLt)
    have hpoolNew : (doSwap st i termDest termR prevI condDest condR
        (.InvertIcmpCond cc x y)).pool (st.pools.length + 1) = x :: y :: st.pool termR := by
      rw [hSwap]
      unfold FuncState.pool
      have hlenA : (st.pools ++ [restP]).length = st.pools.length + 1 := by simp
      rw [← hlenA]
      exact getD_append_self _ _ _ _
    have hinstI : (doSwap st i termDest termR prevI condDest condR
        (.InvertIcmpCond cc x y)).inst i = .Jump .jump condDest st.pools.length := by
      rw [hSwap]
      unfold FuncState.inst
      rw [getD_set_ne _ _ _ _ _ hpne]
      exact getD_set_self _ _ _ _ hiLt
    have hpoolJ : (doSwap st i termDest termR prevI condDest condR
        (.InvertIcmpCond cc x y)).pool st.pools.length = restP := by
      rw [hSwap]
      unfold FuncState.pool
      rw [getD_append_left _ _ _ _ (by simp)]
      exact getD_append_self _ _ _ _
    refine ⟨_, hrun, hinstPrev, hpoolNew, hinstI, hpoolJ, ?_, ?_⟩
    · rw [hinstPrev, hinstI, hicmp, hterm]
      unfold instEdgesArgs
      dsimp only
      rw [hpoolNew, hpoolJ, hpoolc]
      exact List.Perm.swap _ _ _
    · intro j hj1 hj2
      rw [hSwap]
      unfold FuncState.inst
      rw [getD_set_ne _ _ _ _ _ (Ne.symm hj1), getD_set_ne _ _ _ _ _ (Ne.symm hj2)]

/-- C4 (witness): on a block ending `brz c, B1, [a1]; jump B2, [a2]` with layout
`B0, B1, B2`, the pass produces `brnz c, B2, [a2]; jump B1, [a1]`. -/
theorem c4_branch_order_swap_witness :
    branch_order c4WitState 0 1 = .ok c4WitRes
    ∧ c4WitRes.inst 0 = .Branch .brnz 2 3
    ∧ c4WitRes.pool 3 = [0, 2]
    ∧ c4WitRes.inst 1 = .Jump .jump 1 2
    ∧ c4WitRes.pool 2 = [1] := by
  obtain ⟨st', hrun, h1, h2, h3, h4, _, _⟩ :=
    (c4_branch_order_swap c4WitState 0 1 0 1 2 1 1 0
      (by decide) (by decide) (by decide) (by decide) rfl).1 0 [1] (by decide) (by decide)
  have hok : branch_order c4WitState 0 1 = .ok c4WitRes := by decide
  have hst : st' = c4WitRes := by
    rw [hok] at hrun
    injection hrun with h
    exact h.symm
  rw [hst] at h1 h2 h3 h4
  exact ⟨hok, h1, h2, h3, h4⟩

/-- Evaluation of the spec's S32 negative power-of-two sequence, as a single
word expression. -/
theorem runSeq_s32NegPow2 (env : Value → Nat) (n fresh : Value) (k : Nat)
    (hn : n < fresh) (hk1 : 1 ≤ k) (hk2 : k ≤ 31) :
    runSeq env fresh (s32NegPow2DivSeq n k fresh)
      = ofInt32 (0 - toSigned32 (sshr32
          ((env n + ushr32 (if k = 1 then env n else sshr32 (env n) (k - 1)) (32 - k))
            % 2 ^ 32) k)) := by
  have hne0 : n ≠ fresh := Nat.ne_of_lt hn
  have hne1 : n ≠ fresh + 1 := Nat.ne_of_lt (Nat.lt_succ_of_lt hn)
  have hne2 : n ≠ fresh + 2 := Nat.ne_of_lt (Nat.lt_succ_of_lt (Nat.lt_succ_of_lt hn))
  have hne3 : n ≠ fresh + 3 :=
    Nat.ne_of_lt (Nat.lt_succ_of_lt (Nat.lt_succ_of_lt (Nat.lt_succ_of_lt hn)))
  have ht1 : ((k : Int) - 1).toNat = k - 1 := by omega
  have ht2 : ((32 : Int) - (k : Int)).toNat = 32 - k := by omega
  have ht3 : ((k : Int)).toNat = k := by omega
  by_cases hk : k = 1
  · rw [if_pos hk]
    subst hk
    unfold s32NegPow2DivSeq
    rw [if_pos rfl]
    unfold runSeq evalSeq evalData32
    dsimp only
    simp [evalSeq, evalData32, hne0, hne1, hne2, hne3, ht1, ht2, ht3]
  · rw [if_neg hk]
    unfold s32NegPow2DivSeq
    rw [if_neg hk]
    unfold runSeq evalSeq evalData32
    dsimp only
    simp [evalSeq, evalData32, hne0, hne1, hne2, hne3, ht1, ht2, ht3]

/-- C3: signed power-of-two division: an I32 `sdiv_imm n, d` with `d = -(2^k)`,
`1 ≤ k ≤ 31`, is rewritten to the sequence
`t1 = (n if k = 1 else sshr_imm(n, k-1)); t2 = ushr_imm(t1, 32-k);
t3 = iadd(n, t2); t4 = sshr_imm(t3, k)` with replacement `irsub_imm t4, 0`,
and for every 32-bit word value of `n` this sequence evaluates to the
truncating (toward-zero) signed quotient `n / d`. -/
theorem c3_sdiv_neg_pow2 (m : MagicFns) (n : Value) (k : Nat) (d : Int) (fresh : Value)
    (env : Value → Nat)
    (hk1 : 1 ≤ k) (hk2 : k ≤ 31) (hd : d = -(2 ^ k)) (hn : n < fresh)
    (henv : env n < 2 ^ 32) :
    doDivremAction m (.DivS32 n d) fresh = some (s32NegPow2DivSeq n k fresh)
    ∧ toSigned32 (runSeq env fresh (s32NegPow2DivSeq n k fresh))
        = sdivT (toSigned32 (env n)) d := by
  subst hd
  have h2k : (2 : Int) ≤ 2 ^ k := by
    calc (2 : Int) = 2 ^ 1 := (pow_one 2).symm
      _ ≤ 2 ^ k := pow_le_pow_right₀ (by norm_num) hk1
  have hne0 : n ≠ fresh := Nat.ne_of_lt hn
  have hne1 : n ≠ fresh + 1 := Nat.ne_of_lt (Nat.lt_succ_of_lt hn)
  have hne2 : n ≠ fresh + 2 := Nat.ne_of_lt (Nat.lt_succ_of_lt (Nat.lt_succ_of_lt hn))
  have hne3 : n ≠ fresh + 3 :=
    Nat.ne_of_lt (Nat.lt_succ_of_lt (Nat.lt_succ_of_lt (Nat.lt_succ_of_lt hn)))
  constructor
  · unfold doDivremAction
    dsimp only
    unfold actionS32
    rw [if_neg (by omega), if_neg (by omega), i32_pow2_neg k hk1 hk2]
    dsimp only
    by_cases hk : k = 1
    · subst hk
      norm_num [EmitSt.emit, s32NegPow2DivSeq]
    · rw [if_neg (by omega : ¬(k - 1 = 0))]
      unfold s32NegPow2DivSeq
      rw [if_neg hk]
      norm_num [EmitSt.emit]
  · have heval := s32_neg_pow2_eval k hk1 hk2 (env n) henv
    rw [runSeq_s32NegPow2 env n fresh k hn hk1 hk2]
    exact heval

/-- C3 (witness): for `d = -4` the emitted sequence yields `-2` at `n = 9` and
`2` at `n = -9` (the word `2^32 - 9`). -/
theorem c3_sdiv_neg_pow2_witness :
    toSigned32 (runSeq (fun v => if v = 0 then (9 : Nat) else 0) 1
      (s32NegPow2DivSeq 0 2 1)) = -2
    ∧ toSigned32 (runSeq (fun v => if v = 0 then (2 ^ 32 - 9 : Nat) else 0) 1
      (s32NegPow2DivSeq 0 2 1)) = 2
    ∧ doDivremAction trivialMagic (.DivS32 0 (-4)) 1 = some (s32NegPow2DivSeq 0 2 1) := by
  have h1 := (c3_sdiv_neg_pow2 trivialMagic 0 2 (-(2 ^ 2)) 1
    (fun v => if v = 0 then (9 : Nat) else 0) (by norm_num) (by norm_num) rfl
    (by norm_num) (by norm_num)).2
  have h2 := (c3_sdiv_neg_pow2 trivialMagic 0 2 (-(2 ^ 2)) 1
    (fun v => if v = 0 then (2 ^ 32 - 9 : Nat) else 0) (by norm_num) (by norm_num) rfl
    (by norm_num) (by norm_num)).2
  have h3 := (c3_sdiv_neg_pow2 trivialMagic 0 2 (-(2 ^ 2)) 1
    (fun v => if v = 0 then (9 : Nat) else 0) (by norm_num) (by norm_num) rfl
    (by norm_num) (by norm_num)).1
  refine ⟨?_, ?_, ?_⟩
  · rw [h1]
    decide
  · rw [h2]
    decide
  · exact h3

/-- C9 (amended): full idempotence fails (see the counterexample), but the
div/rem rewriter never triggers on the instructions it produced: every
instruction inserted or substituted by a div/rem rewrite fails the
div/rem-by-immediate opcode gate, and any instruction failing that gate is
never classified by `get_div_info`. -/
theorem c9_divrem_no_retrigger (m : MagicFns) (info : DivRemByConstInfo) (fresh : Value)
    (ins : List (InstructionData × Ty)) (repl : InstructionData)
    (hact : doDivremAction m info fresh = some (ins, repl)) :
    (∀ d ∈ ins.map Prod.fst ++ [repl], notDivRemData d = true)
    ∧ (∀ (st : FuncState) (j : Inst), notDivRemData (st.inst j) = true →
        get_div_info st j = none) := by
  constructor
  · cases info <;>
    · simp only [doDivremAction] at hact
      simp only [actionU32, actionU64, actionS32, actionS64, EmitSt.emit,
        List.length_cons, List.length_nil, List.nil_append, List.cons_append,
        List.append_nil, Bool.false_eq_true, if_false, if_true, ite_true, ite_false,
        eq_self_iff_true] at hact
      repeat' split at hact
      all_goals try exact Option.noConfusion hact
      all_goals
        (rw [Option.some.injEq, Prod.mk.injEq] at hact
         obtain ⟨h1, h2⟩ := hact
         subst h1
         subst h2
         intro d hd
         fin_cases hd <;> rfl)
  · intro st j hnot
    unfold get_div_info getDivInfoData
    cases hd : st.inst j <;> try rfl
    case BinaryImm op arg imm =>
      rw [hd] at hnot
      cases op <;> first
        | rfl
        | (exfalso
           simp [notDivRemData] at hnot)

/-- C9 (witness): the power-of-two expansion of `udiv_imm n, 8` replaces the
instruction with `ushr_imm n, 3`, which is not classified as div/rem-by-immediate. -/
theorem c9_divrem_no_retrigger_witness :
    notDivRemData (.BinaryImm .ushrImm 0 3) = true
    ∧ get_div_info c9WitState 0 = none := by
  have h := c9_divrem_no_retrigger trivialMagic (.DivU32 0 8) 0 []
    (.BinaryImm .ushrImm 0 3) (by decide)
  exact ⟨h.1 _ (by simp), h.2 c9WitState 0 (by decide)⟩

end SimplePreopt
